import Mathlib

/-!
Verification of the comment-classification engine of the
`eslint-plugin-todos` repository (`src/index.js`).

The engine compiles configured warning terms into regular expressions
(`convertToRegExp`), classifies each comment (`getUndocumentedTodoMessage`,
`commentHasIssue`, `checkComment`, `isDirectiveComment`) and discovers a
default issue-tracker reference from the project manifest (`getRepoUrl`).

The generated regular expressions only use the constructs: case-insensitive
literals, the start anchor `^`, the whitespace run `\s*`, the word boundary
`\b`, the optional colon `:?` and the alternation `|`.  We embed exactly this
fragment as an abstract syntax tree `RE` together with a backtracking
matcher whose result list is ordered by the JavaScript backtracking
priority (alternation prefers the left branch, `\s*` and `?` are greedy),
so that both `RegExp.prototype.test` and the first-match semantics of
`String.prototype.replace` are captured faithfully.

Embedding conventions:
  - strings are handled through their character lists (`String.data`);
  - the `i` flag is modelled by ASCII case folding on literals (`ciEq`);
    the one regex compiled without the `i` flag (`selfConfigRegEx`) uses
    case-sensitive literals instead;
  - `\w` is `[A-Za-z0-9_]` and `\s` is the JavaScript whitespace set
    (restricted to its common members);
  - JavaScript falsiness of the empty string is modelled explicitly.
-/

/-- JavaScript `\w`: ASCII letter, digit or underscore. -/
def isWordChar (c : Char) : Bool := c.isAlpha || c.isDigit || c == '_'

/-- JavaScript `\s` (the members relevant to this development): space, tab,
newline, carriage return, vertical tab, form feed, no-break space. -/
def isSpaceChar (c : Char) : Bool :=
  c == ' ' || c == '\t' || c == '\n' || c == '\r' || c == '\x0b' ||
    c == '\x0c' || c == ' '

/-- Case-insensitive character comparison, modelling the `i` regex flag with
ASCII case folding: two characters are equivalent when they are equal, or
when both are ASCII letters and differ only in case (ASCII upper and lower
case code points differ by 32, so they agree modulo 32). -/
def ciEq (a b : Char) : Bool :=
  a == b || (a.isAlpha && b.isAlpha && a.toNat % 32 == b.toNat % 32)

/-- Whether the first character of a list is a word character; an empty list
counts as a non-word context (outside the string). -/
def headWord : List Char → Bool
  | [] => false
  | c :: _ => isWordChar c

/-- Word-boundary test at the position between a reversed left context `l`
and the remaining input `s`: `\b` holds when exactly one side is a word
character. -/
def atWb (l s : List Char) : Bool := headWord l != headWord s

/-- JavaScript `String.prototype.trim`, on character lists. -/
def jsTrimList (s : List Char) : List Char :=
  ((s.dropWhile isSpaceChar).reverse.dropWhile isSpaceChar).reverse

/-- JavaScript `String.prototype.trim`. -/
def jsTrim (s : String) : String := ⟨jsTrimList s.data⟩

/-- Abstract syntax of the regex fragment generated by `convertToRegExp`. -/
inductive RE where
  | epsilon
  | lit (c : Char)
  | litCS (c : Char)
  | wsStar
  | wb
  | anchor
  | opt (r : RE)
  | cat (r s : RE)
  | alt (r s : RE)
deriving DecidableEq

/-- All ways for `\s*` to consume a prefix of the input, longest first
(greedy order), each given as the new reversed left context and the
remaining input. -/
def wsSplits : List Char → List Char → List (List Char × List Char)
  | l, [] => [(l, [])]
  | l, c :: cs =>
      (if isSpaceChar c then wsSplits (c :: l) cs else []) ++ [(l, c :: cs)]

/-- Backtracking matcher: all states `(new reversed left context, remaining
input)` reachable by matching `re` at the current position, ordered by the
JavaScript backtracking priority (left alternative first, greedy
quantifiers). -/
def matchesFrom : RE → List Char → List Char → List (List Char × List Char)
  | .epsilon, l, s => [(l, s)]
  | .lit c, l, s =>
      match s with
      | [] => []
      | d :: ds => if ciEq c d then [(d :: l, ds)] else []
  | .litCS c, l, s =>
      match s with
      | [] => []
      | d :: ds => if c == d then [(d :: l, ds)] else []
  | .wsStar, l, s => wsSplits l s
  | .wb, l, s => if atWb l s then [(l, s)] else []
  | .anchor, l, s => if l.isEmpty then [(l, s)] else []
  | .opt r, l, s => matchesFrom r l s ++ [(l, s)]
  | .cat r t, l, s => (matchesFrom r l s).flatMap fun p => matchesFrom t p.1 p.2
  | .alt r t, l, s => matchesFrom r l s ++ matchesFrom t l s

/-- Scan of `RegExp.prototype.test`: try to match at the current position,
then at every later position. -/
def reTestAux (re : RE) : List Char → List Char → Bool
  | l, [] => !(matchesFrom re l []).isEmpty
  | l, c :: cs => !(matchesFrom re l (c :: cs)).isEmpty || reTestAux re (c :: l) cs

/-- `RegExp.prototype.test` on a string. -/
def reTest (re : RE) (s : String) : Bool := reTestAux re [] s.data

/-- Scan of `String.prototype.replace(re, "")` for a non-global regex:
delete the first match (leftmost position, highest backtracking priority);
return the string unchanged when there is no match. -/
def replaceFirstAux (re : RE) : List Char → List Char → List Char
  | l, [] =>
      match matchesFrom re l [] with
      | p :: _ => l.reverse ++ p.2
      | [] => l.reverse
  | l, c :: cs =>
      match matchesFrom re l (c :: cs) with
      | p :: _ => l.reverse ++ p.2
      | [] => replaceFirstAux re (c :: l) cs

/-- `comment.replace(regex, "")` for a non-global regex. -/
def replaceFirst (re : RE) (s : String) : String := ⟨replaceFirstAux re [] s.data⟩

/-- A sequence of case-insensitive literal characters: the regex denoted by
an escaped term (escaping makes every character literal) under the `i`
flag. -/
def lits : List Char → RE
  | [] => .epsilon
  | c :: cs => .cat (.lit c) (lits cs)

/-- A sequence of case-sensitive literal characters: the regex denoted by a
literal in a regex compiled without the `i` flag. -/
def litsExact : List Char → RE
  | [] => .epsilon
  | c :: cs => .cat (.litCS c) (litsExact cs)

/-- Concatenation of a list of regex pieces. -/
def reSeq : List RE → RE
  | [] => .epsilon
  | [r] => r
  | r :: rs => .cat r (reSeq rs)

/-- Pointwise case-insensitive equality of two character lists. -/
def ciEqList : List Char → List Char → Bool
  | [], [] => true
  | a :: as, b :: bs => ciEq a b && ciEqList as bs
  | _, _ => false

/-- Whether `needle` is a case-insensitive initial segment of `hay`. -/
def leadsWithCI : List Char → List Char → Bool
  | [], _ => true
  | _ :: _, [] => false
  | a :: as, b :: bs => ciEq a b && leadsWithCI as bs

/-- Whether `needle` is a (case-sensitive) initial segment of `hay`,
modelling `hay.indexOf(needle) === 0`. -/
def leadsWith : List Char → List Char → Bool
  | [], _ => true
  | _ :: _, [] => false
  | a :: as, b :: bs => a == b && leadsWith as bs

/-- Case-insensitive substring test: some position of `hay` starts with
`needle` (case-insensitively). -/
def ciContains (needle : List Char) : List Char → Bool
  | [] => leadsWithCI needle []
  | c :: cs => leadsWithCI needle (c :: cs) || ciContains needle cs

/-- Position scan for the `only inside longer words` hypothesis: `true` when
at every position of the input (reversed left context `l`, rest `s`) where
the term `T` occurs case-insensitively, the character immediately before or
the character immediately after the occurrence is a word character. -/
def occOnlyAux (T : List Char) : List Char → List Char → Bool
  | l, [] => !(leadsWithCI T []) || headWord l
  | l, c :: cs =>
      (!(leadsWithCI T (c :: cs)) || headWord l || headWord ((c :: cs).drop T.length)) &&
        occOnlyAux T (c :: l) cs

/-- The comment `C` contains the term `T` only as a proper substring of a
longer word: every case-insensitive occurrence of `T` in `C` is immediately
preceded or immediately followed by a word character. -/
def occursOnlyInsideWords (T C : String) : Bool := occOnlyAux T.data [] C.data

/-- The string is empty or starts with a non-word character. -/
def nonWordLead (s : String) : Bool :=
  match s.data with
  | [] => true
  | c :: _ => !(isWordChar c)

/-- The string consists of whitespace characters only. -/
def allSpace (s : String) : Bool := s.data.all isSpaceChar

/-- The characters escaped by the `lodash` `escapeRegExp` helper used by the
source (its regex character class, written out). -/
def isRegExpSpecial (c : Char) : Bool :=
  c == '\\' || c == '^' || c == '$' || c == '.' || c == '*' || c == '+' ||
    c == '?' || c == '(' || c == ')' || c == '[' || c == ']' ||
    c == '\x7b' || c == '\x7d' || c == '|'

/-- Modelled from the spec: the `lodash` dependency escapeRegExp helper
(implementation not under src/) — escape the term so every character is
treated literally, by prefixing each regex special character with a
backslash. -/
def escapeRegExp (s : String) : String :=
  ⟨s.data.flatMap fun c => if isRegExpSpecial c then ['\\', c] else [c]⟩

/-- The two values of the `location` option. -/
inductive MatchLocation where
  | start
  | anywhere
deriving DecidableEq

/-- JavaScript test `/^\w/u.test(term)`. -/
def termStartsWord (term : String) : Bool :=
  match term.data with
  | [] => false
  | c :: _ => isWordChar c

/-- JavaScript test `/\w$/u.test(term)`. -/
def termEndsWord (term : String) : Bool :=
  match term.data.getLast? with
  | none => false
  | some c => isWordChar c

/-- The suffix rule of `convertToRegExp`: a trailing word boundary when the
term ends in a word character, and in either case an optional colon
(`(/\w$/u.test(term) ? "\\b" : "") + ":?"`). -/
def sufOf (term : String) : RE :=
  if termEndsWord term then .cat .wb (.opt (.lit ':')) else .opt (.lit ':')

/-- The prefix rule of `convertToRegExp` in `anywhere` mode: a word boundary
when the term starts with a word character, nothing otherwise. -/
def anywherePre (term : String) : List RE :=
  if termStartsWord term then [.wb] else []

/-- `convertToRegExp` of `src/index.js`, at the level of regex meaning.
In `start` mode the pattern is `^\s*ESCAPED SUF`; in `anywhere` mode it is
`PRE ESCAPED SUF|\bTERM\b`.  The escaped term denotes its characters taken
literally; the raw unescaped term of the second `anywhere` alternative is
also rendered as its literal characters, which is faithful exactly when the
term contains no regex special character (all terms considered by the
claims are of this shape). -/
def convertToRegExp (location : MatchLocation) (term : String) : RE :=
  match location with
  | .start => reSeq [.anchor, .wsStar, lits term.data, sufOf term]
  | .anywhere =>
      .alt (reSeq (anywherePre term ++ [lits term.data, sufOf term]))
        (reSeq [.wb, lits term.data, .wb])

/-- The suffix rule of `convertToRegExp` as pattern text. -/
def sufSrc (term : String) : String :=
  (if termEndsWord term then "\\b" else "") ++ ":?"

/-- The prefix rule of `convertToRegExp` in `anywhere` mode as pattern
text. -/
def anywherePreSrc (term : String) : String :=
  if termStartsWord term then "\\b" else ""

/-- `convertToRegExp` of `src/index.js`, at the level of the pattern source
text handed to `new RegExp`: the exact string concatenation performed by
the source (`wordBoundary` is the text backslash-b, `eitherOrWordBoundary`
the text bar-backslash-b). -/
def convertToRegExpSrc (location : MatchLocation) (term : String) : String :=
  match location with
  | .start => "^\\s*" ++ escapeRegExp term ++ sufSrc term
  | .anywhere =>
      anywherePreSrc term ++ escapeRegExp term ++ sufSrc term ++
        ("|" ++ "\\b") ++ term ++ "\\b"

/-- The default for the `terms` option. -/
def defaultWarningTerms : List String := ["todo", "fixme", "xxx"]

/-- The compiled matcher list: `warningTerms.map(convertToRegExp)`. -/
def warningRegExps (location : MatchLocation) (terms : List String) : List RE :=
  terms.map (convertToRegExp location)

/-- Modelled from the spec: the `ellipsize` dependency (implementation not
under src/) — a string of more than `max` characters is truncated so that
the non-marker portion is exactly `max` characters, with an ellipsis marker
appended; a string of `max` characters or fewer is returned unmodified. -/
def ellipsize (s : String) (max : Nat) : String :=
  if s.data.length ≤ max then s else ⟨s.data.take max ++ ['…']⟩

/-- The `repoUrlRegEx` of the source:
`repoUrl ? new RegExp(escapeRegExp(repoUrl.trim()), "iu") : undefined`.
An absent or empty (falsy) `repoUrl` yields no regex; otherwise the regex
is the escaped trimmed reference, i.e. its characters taken literally. -/
def repoUrlRegEx (repoUrl : Option String) : Option RE :=
  match repoUrl with
  | none => none
  | some u => if u == "" then none else some (lits (jsTrim u).data)

/-- `commentHasIssue` of `src/index.js`: `false` when no tracker regex is
available, otherwise the regex test on the full comment text. -/
def commentHasIssue (repoUrl : Option String) (comment : String) : Bool :=
  match repoUrlRegEx repoUrl with
  | none => false
  | some re => reTest re comment

/-- `getUndocumentedTodoMessage` of `src/index.js`: scan the compiled
matchers in order; on the first regex that tests true on a comment with no
issue reference, delete the first match, trim, ellipsize to 60 characters;
`none` models the JavaScript return value `false`. -/
def getUndocumentedTodoMessage
    (regexps : List RE) (repoUrl : Option String) (comment : String) :
    Option String :=
  match regexps with
  | [] => none
  | re :: rs =>
      if reTest re comment && !commentHasIssue repoUrl comment then
        some (ellipsize (jsTrim (replaceFirst re comment)) 60)
      else getUndocumentedTodoMessage rs repoUrl comment

/-- Comment kinds as delivered by the host (the `Shebang` pseudo-token is
filtered out by the source before `checkComment` runs). -/
inductive CommentType where
  | line
  | block
deriving DecidableEq

/-- A comment node: its kind and its raw text (`node.value`). -/
structure Comment where
  type : CommentType
  value : String

/-- `isDirectiveComment` of `src/index.js`. -/
def isDirectiveComment (node : Comment) : Bool :=
  let comment := (jsTrim node.value).data
  (node.type == .line && leadsWith "eslint-".data comment) ||
    (node.type == .block &&
      (leadsWith "global ".data comment ||
        leadsWith "eslint ".data comment ||
        leadsWith "eslint-".data comment))

/-- The `selfConfigRegEx` of the source: `/\bno-warning-comments\b/u`, the
word-bounded literal `no-warning-comments`.  The source regex carries no
`i` flag, so its literal is case-sensitive. -/
def selfConfigRegEx : RE :=
  reSeq [.wb, litsExact "no-warning-comments".data, .wb]

/-- `checkComment` of `src/index.js`: the reported message, when any.  A
directive comment naming this rule is never reported; an empty message is
falsy in the source (`if (todoMessage)`), so it is never reported either. -/
def checkComment (regexps : List RE) (repoUrl : Option String) (node : Comment) :
    Option String :=
  if isDirectiveComment node && reTest selfConfigRegEx node.value then none
  else
    match getUndocumentedTodoMessage regexps repoUrl node.value with
    | some m => if m == "" then none else some ("Undocumented TODO: " ++ m)
    | none => none

/-- A manifest field as the source distinguishes it: absent, a plain
string, or an object carrying an optional `url` sub-field. -/
inductive PkgField where
  | absent
  | str (s : String)
  | obj (url : Option String)
deriving DecidableEq

/-- The slice of a parsed `package.json` read by `getRepoUrl`. -/
structure PackageJson where
  bugs : PkgField
  repository : PkgField
  resolutions : PkgField

/-- The `repository` half of `getRepoUrl`, entered when the `bugs` field
yields nothing.  Mirrors the source exactly, including its reading of
`packageJson.resolutions.url` where the guard runs: when `resolutions` is
absent that property access throws a TypeError (`Except.error`); when
`resolutions` is a plain string the access yields `undefined` and the guard
falls through; only a truthy `resolutions.url` lets the source return
`packageJson.repository.url`. -/
def repoOf (p : PackageJson) : Except Unit (Option String) :=
  match p.repository with
  | .str s => if s == "" then .ok none else .ok (some s)
  | .obj u =>
      match p.resolutions with
      | .absent => .error ()
      | .str _ => .ok none
      | .obj ru =>
          match ru with
          | some rv => if rv == "" then .ok none else .ok u
          | none => .ok none
  | .absent => .ok none

/-- `getRepoUrl` of `src/index.js`.  The argument models the result of
`readPkgUp.sync()`: `none` when no manifest was found (the source then
throws a TypeError reading `.packageJson` of `undefined`, modelled as
`Except.error`).  A truthy string `bugs` is returned first, then a truthy
`bugs.url`; otherwise the `repository` half runs. -/
def getRepoUrl : Option PackageJson → Except Unit (Option String)
  | none => .error ()
  | some p =>
      match p.bugs with
      | .str s => if s == "" then repoOf p else .ok (some s)
      | .obj u =>
          match u with
          | some v => if v == "" then repoOf p else .ok (some v)
          | none => repoOf p
      | .absent => repoOf p

/-- The `repoUrl` resolution of the source:
`configuration.url || getRepoUrl()` — a truthy configured value
short-circuits, a falsy one falls back to the manifest lookup. -/
def resolveRepoUrl (configUrl : Option String) (lookup : Option PackageJson) :
    Except Unit (Option String) :=
  match configUrl with
  | some u => if u == "" then getRepoUrl lookup else .ok (some u)
  | none => getRepoUrl lookup

/-! ### Basic lemmas about character classes -/

theorem ciEq_refl (c : Char) : ciEq c c = true := by
  simp [ciEq]

theorem ciEq_isWord {a b : Char} (h : ciEq a b = true) :
    isWordChar a = isWordChar b := by
  simp only [ciEq, Bool.or_eq_true, beq_iff_eq, Bool.and_eq_true] at h
  rcases h with h | ⟨⟨ha, hb⟩, -⟩
  · rw [h]
  · simp [isWordChar, ha, hb]

theorem space_not_word {c : Char} (h : isSpaceChar c = true) :
    isWordChar c = false := by
  simp only [isSpaceChar, Bool.or_eq_true, beq_iff_eq] at h
  rcases h with ((((((h | h) | h) | h) | h) | h) | h) <;> subst h <;> decide

theorem headWord_append {a : List Char} (b : List Char) (h : a ≠ []) :
    headWord (a ++ b) = headWord a := by
  cases a with
  | nil => exact absurd rfl h
  | cons c cs => rfl

theorem headWord_true_of_all {xs : List Char} (hne : xs ≠ [])
    (h : ∀ b ∈ xs, isWordChar b = true) : headWord xs = true := by
  cases xs with
  | nil => exact absurd rfl hne
  | cons c cs => exact h c (List.mem_cons_self c cs)

theorem headWord_false_of_all {xs : List Char}
    (h : ∀ b ∈ xs, isWordChar b = false) : headWord xs = false := by
  cases xs with
  | nil => rfl
  | cons c cs => exact h c (List.mem_cons_self c cs)

theorem headWord_reverse_getLast {xs : List Char} {c : Char}
    (h : xs.getLast? = some c) : headWord xs.reverse = isWordChar c := by
  cases hr : xs.reverse with
  | nil =>
      rw [List.reverse_eq_nil_iff] at hr
      subst hr
      simp at h
  | cons d ds =>
      have hd : xs.getLast? = some d := by
        rw [← List.head?_reverse, hr]
        rfl
      rw [h] at hd
      injection hd with hd
      simp [headWord, hr, hd]

theorem nonWordLead_headWord {rest : String} (h : nonWordLead rest = true) :
    headWord rest.data = false := by
  unfold nonWordLead at h
  cases hr : rest.data with
  | nil => rfl
  | cons c cs =>
      rw [hr] at h
      simpa [headWord] using h

/-! ### Lemmas about `ciEqList` -/

theorem ciEqList_length : ∀ {xs ys : List Char},
    ciEqList xs ys = true → ys.length = xs.length
  | [], [], _ => rfl
  | [], _ :: _, h => by simp [ciEqList] at h
  | _ :: _, [], h => by simp [ciEqList] at h
  | _ :: as, _ :: bs, h => by
      simp only [ciEqList, Bool.and_eq_true] at h
      simp [ciEqList_length h.2]

theorem ciEqList_ne_nil {xs ys : List Char}
    (h : ciEqList xs ys = true) (hne : xs ≠ []) : ys ≠ [] := by
  intro hy
  subst hy
  cases xs with
  | nil => exact hne rfl
  | cons a as => simp [ciEqList] at h

theorem ciEqList_words : ∀ {xs ys : List Char},
    ciEqList xs ys = true → (∀ a ∈ xs, isWordChar a = true) →
    ∀ b ∈ ys, isWordChar b = true
  | [], [], _, _, b, hb => absurd hb (List.not_mem_nil b)
  | [], _ :: _, h, _, _, _ => by simp [ciEqList] at h
  | _ :: _, [], h, _, b, hb => absurd hb (List.not_mem_nil b)
  | a :: as, b :: bs, h, hall, b', hb' => by
      simp only [ciEqList, Bool.and_eq_true] at h
      rcases List.mem_cons.mp hb' with hb' | hb'
      · subst hb'
        rw [← ciEq_isWord h.1]
        exact hall a (List.mem_cons_self a as)
      · exact ciEqList_words h.2 (fun x hx => hall x (List.mem_cons_of_mem a hx)) b' hb'

theorem ciEqList_leadsWithCI : ∀ {xs mid : List Char} (rest : List Char),
    ciEqList xs mid = true → leadsWithCI xs (mid ++ rest) = true
  | [], [], rest, _ => rfl
  | [], _ :: _, _, h => by simp [ciEqList] at h
  | _ :: _, [], _, h => by simp [ciEqList] at h
  | a :: as, b :: bs, rest, h => by
      simp only [ciEqList, Bool.and_eq_true] at h
      simp [leadsWithCI, h.1, ciEqList_leadsWithCI rest h.2]

/-! ### Construction lemmas for the matcher -/

theorem mem_matchesFrom_cat {r t : RE} {l s : List Char}
    {q p : List Char × List Char}
    (hq : q ∈ matchesFrom r l s) (hp : p ∈ matchesFrom t q.1 q.2) :
    p ∈ matchesFrom (.cat r t) l s := by
  simp only [matchesFrom, List.mem_flatMap]
  exact ⟨q, hq, hp⟩

theorem mem_wsSplits : ∀ (w l rest : List Char),
    (∀ c ∈ w, isSpaceChar c = true) →
    (w.reverse ++ l, rest) ∈ wsSplits l (w ++ rest)
  | [], l, rest, _ => by
      cases rest with
      | nil => simp [wsSplits]
      | cons c cs => simp [wsSplits]
  | a :: as, l, rest, h => by
      have ha : isSpaceChar a = true := h a (List.mem_cons_self a as)
      have ih := mem_wsSplits as (a :: l) rest
        (fun c hc => h c (List.mem_cons_of_mem a hc))
      simp only [List.cons_append, wsSplits, ha, if_pos]
      refine List.mem_append_left _ ?_
      simpa [List.append_assoc] using ih

theorem mem_matchesFrom_lits : ∀ (xs l rest : List Char),
    (xs.reverse ++ l, rest) ∈ matchesFrom (lits xs) l (xs ++ rest)
  | [], l, rest => by simp [lits, matchesFrom]
  | c :: cs, l, rest => by
      have ih := mem_matchesFrom_lits cs (c :: l) rest
      have hq : ((c :: l, cs ++ rest) : List Char × List Char) ∈
          matchesFrom (.lit c) l (c :: (cs ++ rest)) := by
        simp [matchesFrom, ciEq_refl]
      have hp : ((cs.reverse ++ (c :: l), rest) : List Char × List Char) ∈
          matchesFrom (lits cs)
            ((c :: l, cs ++ rest) : List Char × List Char).1
            ((c :: l, cs ++ rest) : List Char × List Char).2 := ih
      have := mem_matchesFrom_cat hq hp
      simpa [lits, List.append_assoc] using this

theorem mem_matchesFrom_opt_skip (r : RE) (l s : List Char) :
    (l, s) ∈ matchesFrom (.opt r) l s := by
  simp [matchesFrom]

theorem mem_matchesFrom_wb {l s : List Char} (h : atWb l s = true) :
    (l, s) ∈ matchesFrom .wb l s := by
  simp [matchesFrom, h]

theorem reTestAux_of_mem {re : RE} {l s : List Char} {p : List Char × List Char}
    (h : p ∈ matchesFrom re l s) : reTestAux re l s = true := by
  have hne := List.ne_nil_of_mem h
  have hie : (matchesFrom re l s).isEmpty = false := by
    cases hm : matchesFrom re l s with
    | nil => exact absurd hm hne
    | cons x xs => rfl
  cases s with
  | nil => simp [reTestAux, hie]
  | cons c cs => simp [reTestAux, hie]

/-! ### The positive half of the start-mode matching property -/

theorem termEndsWord_getLast {T : String} (h : termEndsWord T = true) :
    ∃ c, T.data.getLast? = some c ∧ isWordChar c = true := by
  unfold termEndsWord at h
  cases hl : T.data.getLast? with
  | none => rw [hl] at h; simp at h
  | some c => rw [hl] at h; exact ⟨c, rfl, h⟩

theorem getLast?_ne_nil {xs : List Char} {c : Char}
    (h : xs.getLast? = some c) : xs ≠ [] := by
  intro hx
  subst hx
  simp at h

theorem startMatchTrue (T ws rest : String) (hws : allSpace ws = true)
    (hrest : nonWordLead rest = true) :
    reTest (convertToRegExp .start T) (ws ++ T ++ rest) = true := by
  have hdata : (ws ++ T ++ rest).data = ws.data ++ (T.data ++ rest.data) := by
    simp [String.data_append, List.append_assoc]
  rw [reTest, hdata]
  have hwsAll : ∀ c ∈ ws.data, isSpaceChar c = true := by
    simpa [allSpace, List.all_eq_true] using hws
  -- the suffix accepts at context `T.data.reverse ++ ws.data.reverse` and rest
  have hsuf : ((T.data.reverse ++ (ws.data.reverse ++ []), rest.data) :
      List Char × List Char) ∈
      matchesFrom (sufOf T) (T.data.reverse ++ (ws.data.reverse ++ [])) rest.data := by
    cases he : termEndsWord T with
    | true =>
        obtain ⟨c, hlast, hword⟩ := termEndsWord_getLast he
        have hTne : T.data.reverse ≠ [] := by
          simpa using getLast?_ne_nil hlast
        have hhead : headWord (T.data.reverse ++ (ws.data.reverse ++ [])) = true := by
          rw [headWord_append _ hTne, headWord_reverse_getLast hlast]
          exact hword
        have hwb : atWb (T.data.reverse ++ (ws.data.reverse ++ [])) rest.data = true := by
          rw [atWb, hhead, nonWordLead_headWord hrest]
          rfl
        rw [sufOf, if_pos he]
        exact mem_matchesFrom_cat (mem_matchesFrom_wb hwb)
          (mem_matchesFrom_opt_skip _ _ _)
    | false =>
        rw [sufOf, if_neg (by simp [he])]
        exact mem_matchesFrom_opt_skip _ _ _
  have h3 := mem_matchesFrom_lits T.data (ws.data.reverse ++ []) rest.data
  have h2 := mem_wsSplits ws.data [] (T.data ++ rest.data) hwsAll
  have h2' : ((ws.data.reverse ++ [], T.data ++ rest.data) :
      List Char × List Char) ∈
      matchesFrom .wsStar [] (ws.data ++ (T.data ++ rest.data)) := by
    simpa [matchesFrom] using h2
  have h1 : (([] : List Char), ws.data ++ (T.data ++ rest.data)) ∈
      matchesFrom .anchor [] (ws.data ++ (T.data ++ rest.data)) := by
    simp [matchesFrom]
  have hall := mem_matchesFrom_cat h1 (mem_matchesFrom_cat h2'
    (mem_matchesFrom_cat h3 hsuf))
  have : convertToRegExp .start T =
      .cat .anchor (.cat .wsStar (.cat (lits T.data) (sufOf T))) := rfl
  rw [this]
  exact reTestAux_of_mem hall

/-! ### Inversion lemmas for the matcher -/

theorem matchesFrom_cat_inv {r t : RE} {l s : List Char}
    {p : List Char × List Char} (h : p ∈ matchesFrom (.cat r t) l s) :
    ∃ q ∈ matchesFrom r l s, p ∈ matchesFrom t q.1 q.2 := by
  simpa [matchesFrom, List.mem_flatMap] using h

theorem matchesFrom_alt_inv {r t : RE} {l s : List Char}
    {p : List Char × List Char} (h : p ∈ matchesFrom (.alt r t) l s) :
    p ∈ matchesFrom r l s ∨ p ∈ matchesFrom t l s := by
  simpa [matchesFrom] using h

theorem matchesFrom_wb_inv {l s : List Char} {p : List Char × List Char}
    (h : p ∈ matchesFrom .wb l s) : atWb l s = true ∧ p = (l, s) := by
  by_cases hb : atWb l s = true
  · simp only [matchesFrom, hb, if_pos, List.mem_singleton] at h
    exact ⟨hb, h⟩
  · simp [matchesFrom, hb] at h

theorem matchesFrom_anchor_inv {l s : List Char} {p : List Char × List Char}
    (h : p ∈ matchesFrom .anchor l s) : l = [] ∧ p = (l, s) := by
  by_cases hl : l.isEmpty = true
  · simp only [matchesFrom, hl, if_pos, List.mem_singleton] at h
    exact ⟨List.isEmpty_iff.mp hl, h⟩
  · simp [matchesFrom, hl] at h

theorem wsSplits_inv : ∀ {s l : List Char} {p : List Char × List Char},
    p ∈ wsSplits l s →
    ∃ w, (∀ c ∈ w, isSpaceChar c = true) ∧ s = w ++ p.2 ∧ p.1 = w.reverse ++ l
  | [], l, p, h => by
      simp only [wsSplits, List.mem_singleton] at h
      exact ⟨[], by simp, by simp [h], by simp [h]⟩
  | c :: cs, l, p, h => by
      simp only [wsSplits] at h
      rcases List.mem_append.mp h with h | h
      · by_cases hc : isSpaceChar c = true
        · rw [if_pos hc] at h
          obtain ⟨w, hw, hs, hl⟩ := wsSplits_inv h
          refine ⟨c :: w, ?_, by simp [hs], by simp [hl]⟩
          intro d hd
          rcases List.mem_cons.mp hd with hd | hd
          · exact hd ▸ hc
          · exact hw d hd
        · simp [hc] at h
      · rw [List.mem_singleton] at h
        exact ⟨[], by simp, by simp [h], by simp [h]⟩

theorem matchesFrom_lits_inv : ∀ {xs : List Char} {l s : List Char}
    {p : List Char × List Char}, p ∈ matchesFrom (lits xs) l s →
    ∃ mid, s = mid ++ p.2 ∧ p.1 = mid.reverse ++ l ∧ ciEqList xs mid = true
  | [], l, s, p, h => by
      simp only [lits, matchesFrom, List.mem_singleton] at h
      exact ⟨[], by simp [h], by simp [h], rfl⟩
  | a :: as, l, s, p, h => by
      obtain ⟨q, hq, hp⟩ := matchesFrom_cat_inv h
      cases s with
      | nil => simp [matchesFrom] at hq
      | cons d ds =>
          by_cases hd : ciEq a d = true
          · simp only [matchesFrom, hd, if_pos, List.mem_singleton] at hq
            subst hq
            obtain ⟨mid, hs, hl, hci⟩ := matchesFrom_lits_inv hp
            simp only at hs hl
            refine ⟨d :: mid, by simp [hs], by simp [hl], ?_⟩
            simp [ciEqList, hd, hci]
          · simp [matchesFrom, hd] at hq

theorem matchesFrom_opt_inv {r : RE} {l s : List Char}
    {p : List Char × List Char} (h : p ∈ matchesFrom (.opt r) l s) :
    p ∈ matchesFrom r l s ∨ p = (l, s) := by
  simpa [matchesFrom] using h

/-! ### The occurrence-scan invariant -/

theorem occOnly_head {T l s : List Char} (h : occOnlyAux T l s = true)
    (hlead : leadsWithCI T s = true) :
    headWord l = true ∨ headWord (s.drop T.length) = true := by
  cases s with
  | nil =>
      simp only [occOnlyAux, Bool.or_eq_true, Bool.not_eq_true'] at h
      rcases h with h | h
      · rw [h] at hlead; exact absurd hlead (by simp)
      · exact Or.inl h
  | cons c cs =>
      simp only [occOnlyAux, Bool.and_eq_true] at h
      have h1 := h.1
      simp only [Bool.or_eq_true, Bool.not_eq_true'] at h1
      rcases h1 with (h1 | h1) | h1
      · rw [h1] at hlead; exact absurd hlead (by simp)
      · exact Or.inl h1
      · exact Or.inr h1

theorem occOnly_step {T l s : List Char} {c : Char} {cs : List Char}
    (h : occOnlyAux T l s = true) (hs : s = c :: cs) :
    occOnlyAux T (c :: l) cs = true := by
  subst hs
  simp only [occOnlyAux, Bool.and_eq_true] at h
  exact h.2

theorem occOnly_descend {T : List Char} : ∀ (w : List Char) {l s : List Char},
    occOnlyAux T l (w ++ s) = true → occOnlyAux T (w.reverse ++ l) s = true
  | [], l, s, h => h
  | a :: as, l, s, h => by
      have := occOnly_step h rfl
      have ih := occOnly_descend as this
      simpa [List.append_assoc] using ih

/-! ### No-match lemmas for terms occurring only inside longer words -/

theorem getLast?_some_of_ne_nil : ∀ {xs : List Char}, xs ≠ [] →
    ∃ c, xs.getLast? = some c ∧ c ∈ xs
  | [], h => absurd rfl h
  | [a], _ => ⟨a, rfl, List.mem_singleton_self a⟩
  | a :: b :: t, _ => by
      obtain ⟨c, hc, hm⟩ := getLast?_some_of_ne_nil (List.cons_ne_nil b t)
      exact ⟨c, by rw [List.getLast?_cons_cons]; exact hc,
        List.mem_cons_of_mem a hm⟩

theorem termEndsWord_of_all {T : String} (hne : T.data ≠ [])
    (hall : ∀ c ∈ T.data, isWordChar c = true) : termEndsWord T = true := by
  obtain ⟨c, hc, hm⟩ := getLast?_some_of_ne_nil hne
  unfold termEndsWord
  rw [hc]
  exact hall c hm

theorem termStartsWord_of_all {T : String} (hne : T.data ≠ [])
    (hall : ∀ c ∈ T.data, isWordChar c = true) : termStartsWord T = true := by
  unfold termStartsWord
  cases hT : T.data with
  | nil => exact absurd hT hne
  | cons c cs => exact hall c (hT ▸ List.mem_cons_self c cs)

theorem occ_contra {T : String} {lw mid s2 : List Char}
    (hocc : occOnlyAux T.data lw (mid ++ s2) = true)
    (hci : ciEqList T.data mid = true)
    (hLeft : headWord lw = false) (hRight : headWord s2 = false) : False := by
  have hlead := ciEqList_leadsWithCI s2 hci
  have hdrop : (mid ++ s2).drop T.data.length = s2 := by
    rw [← ciEqList_length hci]
    exact List.drop_left mid s2
  rcases occOnly_head hocc hlead with h | h
  · rw [hLeft] at h
    exact Bool.false_ne_true h
  · rw [hdrop, hRight] at h
    exact Bool.false_ne_true h

theorem headWord_false_of_spaces {w : List Char}
    (hw : ∀ c ∈ w, isSpaceChar c = true) : headWord w.reverse = false :=
  headWord_false_of_all fun b hb =>
    space_not_word (hw b (List.mem_reverse.mp hb))

theorem atWb_right_false {l s : List Char} (h : atWb l s = true)
    (hl : headWord l = true) : headWord s = false := by
  rw [atWb, hl] at h
  cases hs : headWord s
  · rfl
  · rw [hs] at h
    simp at h

theorem atWb_left_false {l s : List Char} (h : atWb l s = true)
    (hs : headWord s = true) : headWord l = false := by
  rw [atWb, hs] at h
  cases hl : headWord l
  · rfl
  · rw [hl] at h
    simp at h

theorem startNoMatch {T : String} (hne : T.data ≠ [])
    (hall : ∀ c ∈ T.data, isWordChar c = true) :
    ∀ l s, occOnlyAux T.data l s = true →
      ∀ p, p ∉ matchesFrom (convertToRegExp .start T) l s := by
  intro l s hocc p hp
  have hend := termEndsWord_of_all hne hall
  have hpat : convertToRegExp .start T =
      .cat .anchor (.cat .wsStar (.cat (lits T.data) (sufOf T))) := rfl
  rw [hpat] at hp
  obtain ⟨q1, hq1, hp1⟩ := matchesFrom_cat_inv hp
  obtain ⟨hl0, hq1e⟩ := matchesFrom_anchor_inv hq1
  subst hl0
  subst hq1e
  simp only at hp1
  obtain ⟨q2, hq2, hp2⟩ := matchesFrom_cat_inv hp1
  have hq2' : q2 ∈ wsSplits ([] : List Char) s := hq2
  obtain ⟨w, hw, hs, hq21⟩ := wsSplits_inv hq2'
  obtain ⟨q3, hq3, hp3⟩ := matchesFrom_cat_inv hp2
  obtain ⟨mid, hmid, hq31, hci⟩ := matchesFrom_lits_inv hq3
  rw [sufOf, if_pos hend] at hp3
  obtain ⟨q4, hq4, -⟩ := matchesFrom_cat_inv hp3
  obtain ⟨hwb, -⟩ := matchesFrom_wb_inv hq4
  have hmidne : mid ≠ [] := ciEqList_ne_nil hci hne
  have hmidw : ∀ b ∈ mid, isWordChar b = true := ciEqList_words hci hall
  have hleft : headWord q3.1 = true := by
    rw [hq31, headWord_append _ (by simpa using hmidne)]
    exact headWord_true_of_all (by simpa using hmidne)
      (fun b hb => hmidw b (List.mem_reverse.mp hb))
  have hright : headWord q3.2 = false := atWb_right_false hwb hleft
  have hLeft : headWord q2.1 = false := by
    rw [hq21]
    simpa using headWord_false_of_spaces hw
  have hOccW : occOnlyAux T.data q2.1 q2.2 = true := by
    rw [hq21]
    have := occOnly_descend w (by rw [← hs]; exact hocc)
    simpa using this
  rw [hmid] at hOccW
  exact occ_contra hOccW hci hLeft hright

theorem anywhereNoMatch {T : String} (hne : T.data ≠ [])
    (hall : ∀ c ∈ T.data, isWordChar c = true) :
    ∀ l s, occOnlyAux T.data l s = true →
      ∀ p, p ∉ matchesFrom (convertToRegExp .anywhere T) l s := by
  intro l s hocc p hp
  have hend := termEndsWord_of_all hne hall
  have hstart := termStartsWord_of_all hne hall
  have hpat : convertToRegExp .anywhere T =
      .alt (reSeq (anywherePre T ++ [lits T.data, sufOf T]))
        (.cat .wb (.cat (lits T.data) .wb)) := rfl
  rw [hpat] at hp
  have hpre : anywherePre T = [.wb] := by rw [anywherePre, if_pos hstart]
  rcases matchesFrom_alt_inv hp with hp | hp
  · rw [hpre] at hp
    have hb1 : reSeq ([RE.wb] ++ [lits T.data, sufOf T]) =
        .cat .wb (.cat (lits T.data) (sufOf T)) := rfl
    rw [hb1] at hp
    obtain ⟨q1, hq1, hp1⟩ := matchesFrom_cat_inv hp
    obtain ⟨hwb1, hq1e⟩ := matchesFrom_wb_inv hq1
    subst hq1e
    simp only at hp1
    obtain ⟨q2, hq2, hp2⟩ := matchesFrom_cat_inv hp1
    obtain ⟨mid, hmid, hq21, hci⟩ := matchesFrom_lits_inv hq2
    rw [sufOf, if_pos hend] at hp2
    obtain ⟨q3, hq3, -⟩ := matchesFrom_cat_inv hp2
    obtain ⟨hwb2, -⟩ := matchesFrom_wb_inv hq3
    have hmidne : mid ≠ [] := ciEqList_ne_nil hci hne
    have hmidw : ∀ b ∈ mid, isWordChar b = true := ciEqList_words hci hall
    have hsword : headWord s = true := by
      rw [hmid, headWord_append _ hmidne]
      exact headWord_true_of_all hmidne hmidw
    have hLeft : headWord l = false := atWb_left_false hwb1 hsword
    have hleft2 : headWord q2.1 = true := by
      rw [hq21, headWord_append _ (by simpa using hmidne)]
      exact headWord_true_of_all (by simpa using hmidne)
        (fun b hb => hmidw b (List.mem_reverse.mp hb))
    have hright : headWord q2.2 = false := atWb_right_false hwb2 hleft2
    rw [hmid] at hocc
    exact occ_contra hocc hci hLeft hright
  · obtain ⟨q1, hq1, hp1⟩ := matchesFrom_cat_inv hp
    obtain ⟨hwb1, hq1e⟩ := matchesFrom_wb_inv hq1
    subst hq1e
    simp only at hp1
    obtain ⟨q2, hq2, hp2⟩ := matchesFrom_cat_inv hp1
    obtain ⟨mid, hmid, hq21, hci⟩ := matchesFrom_lits_inv hq2
    obtain ⟨hwb2, -⟩ := matchesFrom_wb_inv hp2
    have hmidne : mid ≠ [] := ciEqList_ne_nil hci hne
    have hmidw : ∀ b ∈ mid, isWordChar b = true := ciEqList_words hci hall
    have hsword : headWord s = true := by
      rw [hmid, headWord_append _ hmidne]
      exact headWord_true_of_all hmidne hmidw
    have hLeft : headWord l = false := atWb_left_false hwb1 hsword
    have hleft2 : headWord q2.1 = true := by
      rw [hq21, headWord_append _ (by simpa using hmidne)]
      exact headWord_true_of_all (by simpa using hmidne)
        (fun b hb => hmidw b (List.mem_reverse.mp hb))
    have hright : headWord q2.2 = false := atWb_right_false hwb2 hleft2
    rw [hmid] at hocc
    exact occ_contra hocc hci hLeft hright

theorem reTestAux_false_of_noMatch {T : List Char} {re : RE}
    (H : ∀ l s, occOnlyAux T l s = true → ∀ p, p ∉ matchesFrom re l s) :
    ∀ (s l : List Char), occOnlyAux T l s = true → reTestAux re l s = false
  | [], l, hocc => by
      have he : matchesFrom re l [] = [] :=
        List.eq_nil_iff_forall_not_mem.mpr (H l [] hocc)
      simp [reTestAux, he]
  | c :: cs, l, hocc => by
      have he : matchesFrom re l (c :: cs) = [] :=
        List.eq_nil_iff_forall_not_mem.mpr (H l (c :: cs) hocc)
      have ih := reTestAux_false_of_noMatch H cs (c :: l) (occOnly_step hocc rfl)
      simp [reTestAux, he, ih]

theorem noMatchOnlyInsideWords {T C : String} (hne : T.data ≠ [])
    (hall : T.data.all isWordChar = true)
    (hocc : occursOnlyInsideWords T C = true) :
    reTest (convertToRegExp .start T) C = false ∧
      reTest (convertToRegExp .anywhere T) C = false := by
  have hall' : ∀ c ∈ T.data, isWordChar c = true := by
    simpa [List.all_eq_true] using hall
  exact ⟨reTestAux_false_of_noMatch (startNoMatch hne hall') C.data [] hocc,
    reTestAux_false_of_noMatch (anywhereNoMatch hne hall') C.data [] hocc⟩

/-! ### Lemmas for the exemption check and the alternation semantics -/

theorem isEmpty_false_of_ne_nil {α : Type} {xs : List α} (h : xs ≠ []) :
    xs.isEmpty = false := by
  cases xs with
  | nil => exact absurd rfl h
  | cons a as => rfl

theorem matchesFrom_lits_ne_nil_of_leads : ∀ {n s : List Char} (l : List Char),
    leadsWithCI n s = true → matchesFrom (lits n) l s ≠ []
  | [], s, l, _ => by simp [lits, matchesFrom]
  | a :: as, [], l, h => by simp [leadsWithCI] at h
  | a :: as, b :: bs, l, h => by
      simp only [leadsWithCI, Bool.and_eq_true] at h
      have ih := matchesFrom_lits_ne_nil_of_leads (b :: l) h.2
      simp only [lits, matchesFrom, h.1, if_pos]
      simpa using ih

theorem reTestAux_true_of_ciContains : ∀ {n : List Char} (s l : List Char),
    ciContains n s = true → reTestAux (lits n) l s = true
  | n, [], l, h => by
      have hne := matchesFrom_lits_ne_nil_of_leads l (by simpa [ciContains] using h)
      simp [reTestAux, isEmpty_false_of_ne_nil hne]
  | n, c :: cs, l, h => by
      simp only [ciContains, Bool.or_eq_true] at h
      rcases h with h | h
      · have hne := matchesFrom_lits_ne_nil_of_leads l h
        simp [reTestAux, isEmpty_false_of_ne_nil hne]
      · have ih := reTestAux_true_of_ciContains cs (c :: l) h
        simp [reTestAux, ih]

theorem commentHasIssue_of_ciContains {u c : String} (hu : u ≠ "")
    (h : ciContains (jsTrim u).data c.data = true) :
    commentHasIssue (some u) c = true := by
  have hbe : (u == "") = false := by
    cases hbe : u == "" with
    | true => exact absurd (eq_of_beq hbe) hu
    | false => rfl
  rw [commentHasIssue, repoUrlRegEx, hbe]
  simp only [Bool.false_eq_true, if_false]
  exact reTestAux_true_of_ciContains c.data [] h

theorem noFinding_of_hasIssue : ∀ (rs : List RE) {url : Option String}
    {c : String}, commentHasIssue url c = true →
    getUndocumentedTodoMessage rs url c = none
  | [], _, _, _ => rfl
  | re :: rs, url, c, h => by
      rw [getUndocumentedTodoMessage, h]
      simp only [Bool.not_true, Bool.and_false, Bool.false_eq_true, if_false]
      exact noFinding_of_hasIssue rs h

theorem isEmpty_append {α : Type} (xs ys : List α) :
    (xs ++ ys).isEmpty = (xs.isEmpty && ys.isEmpty) := by
  cases xs <;> simp

theorem reTestAux_alt (r t : RE) : ∀ (s l : List Char),
    reTestAux (.alt r t) l s = (reTestAux r l s || reTestAux t l s)
  | [], l => by
      simp only [reTestAux, matchesFrom, isEmpty_append, Bool.not_and]
  | c :: cs, l => by
      have ih := reTestAux_alt r t cs (c :: l)
      simp only [reTestAux, matchesFrom, isEmpty_append, ih, Bool.not_and]
      cases (matchesFrom r l (c :: cs)).isEmpty <;>
        cases (matchesFrom t l (c :: cs)).isEmpty <;>
        cases reTestAux r (c :: l) cs <;> cases reTestAux t (c :: l) cs <;> rfl

theorem reTest_alt (r t : RE) (s : String) :
    reTest (.alt r t) s = (reTest r s || reTest t s) :=
  reTestAux_alt r t s.data []

/-! ### Lemmas about the modelled `ellipsize` -/

theorem ellipsize_long {s : String} (h : 60 < s.data.length) :
    ellipsize s 60 = ⟨s.data.take 60 ++ ['…']⟩ := by
  rw [ellipsize, if_neg (by omega)]

theorem ellipsize_short {s : String} (h : s.data.length ≤ 60) :
    ellipsize s 60 = s := by
  rw [ellipsize, if_pos h]

/-! ### The claims -/

/-- C1: for every configured term `T` and every comment that starts, after
any amount of leading whitespace, with `T` followed by a non-word character
or end-of-string, the start-mode compiled matcher matches; and for every
comment containing `T` (a non-empty word-character term) only as a proper
substring of a longer word, neither the start-mode nor the anywhere-mode
matcher matches. -/
theorem c1_start_mode_and_word_boundary :
    (∀ T ws rest : String, allSpace ws = true → nonWordLead rest = true →
        reTest (convertToRegExp .start T) (ws ++ T ++ rest) = true) ∧
    (∀ T C : String, T.data ≠ [] → T.data.all isWordChar = true →
        occursOnlyInsideWords T C = true →
        reTest (convertToRegExp .start T) C = false ∧
          reTest (convertToRegExp .anywhere T) C = false) :=
  ⟨startMatchTrue, fun _ _ hne hall hocc => noMatchOnlyInsideWords hne hall hocc⟩

theorem c1_witness :
    (allSpace " " = true ∧ nonWordLead ": x" = true ∧
      reTest (convertToRegExp .start "todo") (" " ++ "todo" ++ ": x") = true) ∧
    ("todo".data ≠ [] ∧ "todo".data.all isWordChar = true ∧
      occursOnlyInsideWords "todo" "mastodon" = true ∧
      (reTest (convertToRegExp .start "todo") "mastodon" = false ∧
        reTest (convertToRegExp .anywhere "todo") "mastodon" = false)) :=
  ⟨⟨by decide, by decide,
      c1_start_mode_and_word_boundary.1 "todo" " " ": x" (by decide) (by decide)⟩,
    ⟨by decide, by decide, by decide,
      c1_start_mode_and_word_boundary.2 "todo" "mastodon" (by decide) (by decide)
        (by decide)⟩⟩

/-- C2: when a non-empty tracker reference is configured or discovered,
every comment containing it (case-insensitively, after trimming the
reference) is classified as having no finding even when a warning term
matched; when no tracker reference is available, `commentHasIssue` is false
for every comment. -/
theorem c2_tracker_exemption :
    (∀ u : String, u ≠ "" → ∀ (rs : List RE) (c : String),
        ciContains (jsTrim u).data c.data = true →
        getUndocumentedTodoMessage rs (some u) c = none) ∧
    (∀ c : String, commentHasIssue none c = false) :=
  ⟨fun _ hu rs _ h => noFinding_of_hasIssue rs (commentHasIssue_of_ciContains hu h),
    fun _ => rfl⟩

theorem c2_witness :
    ("https://x.test/issues" ≠ "" ∧
      ciContains (jsTrim "https://x.test/issues").data
        "TODO: see https://x.test/issues".data = true ∧
      getUndocumentedTodoMessage [convertToRegExp .start "todo"]
        (some "https://x.test/issues") "TODO: see https://x.test/issues" = none) ∧
    commentHasIssue none "TODO: see nothing" = false :=
  ⟨⟨by decide, by decide,
      c2_tracker_exemption.1 "https://x.test/issues" (by decide)
        [convertToRegExp .start "todo"] "TODO: see https://x.test/issues"
        (by decide)⟩,
    c2_tracker_exemption.2 "TODO: see nothing"⟩

/-- C3: every reported message comes from some matching compiled regex as
the trimmed remainder after deleting the first match, passed through the
60-character ellipsis: a remainder longer than 60 characters yields exactly
its first 60 characters (a list of length 60) followed by the truncation
marker; a remainder of 60 characters or fewer is returned unmodified. -/
theorem c3_message_truncation (rs : List RE) (url : Option String)
    (c m : String) (h : getUndocumentedTodoMessage rs url c = some m) :
    ∃ re, re ∈ rs ∧ reTest re c = true ∧
      m = ellipsize (jsTrim (replaceFirst re c)) 60 ∧
      (60 < (jsTrim (replaceFirst re c)).data.length →
        m.data = (jsTrim (replaceFirst re c)).data.take 60 ++ ['…'] ∧
        ((jsTrim (replaceFirst re c)).data.take 60).length = 60) ∧
      ((jsTrim (replaceFirst re c)).data.length ≤ 60 →
        m = jsTrim (replaceFirst re c)) := by
  induction rs with
  | nil => exact absurd h (by simp [getUndocumentedTodoMessage])
  | cons re rs ih =>
      rw [getUndocumentedTodoMessage] at h
      by_cases hc : (reTest re c && !commentHasIssue url c) = true
      · rw [if_pos hc] at h
        injection h with h
        have hr : reTest re c = true := by
          simp only [Bool.and_eq_true] at hc
          exact hc.1
        refine ⟨re, List.mem_cons_self re rs, hr, h.symm, ?_, ?_⟩
        · intro hlen
          rw [← h, ellipsize_long hlen]
          constructor
          · rfl
          · rw [List.length_take]
            omega
        · intro hlen
          rw [← h, ellipsize_short hlen]
      · rw [if_neg hc] at h
        obtain ⟨re', hmem, rest⟩ := ih h
        exact ⟨re', List.mem_cons_of_mem re hmem, rest⟩

theorem c3_witness :
    getUndocumentedTodoMessage [convertToRegExp .start "todo"] none
        " TODO: aaaaaaaaaaaaaaaaaaaaaaaaaaaaaaaaaaaaaaaaaaaaaaaaaaaaaaaaaaaaaaaaa" =
      some "aaaaaaaaaaaaaaaaaaaaaaaaaaaaaaaaaaaaaaaaaaaaaaaaaaaaaaaaaaaa…" ∧
    (∃ re, re ∈ [convertToRegExp .start "todo"] ∧
      reTest re " TODO: aaaaaaaaaaaaaaaaaaaaaaaaaaaaaaaaaaaaaaaaaaaaaaaaaaaaaaaaaaaaaaaaa" = true ∧
      "aaaaaaaaaaaaaaaaaaaaaaaaaaaaaaaaaaaaaaaaaaaaaaaaaaaaaaaaaaaa…" =
        ellipsize (jsTrim (replaceFirst re
          " TODO: aaaaaaaaaaaaaaaaaaaaaaaaaaaaaaaaaaaaaaaaaaaaaaaaaaaaaaaaaaaaaaaaa")) 60 ∧
      (60 < (jsTrim (replaceFirst re
          " TODO: aaaaaaaaaaaaaaaaaaaaaaaaaaaaaaaaaaaaaaaaaaaaaaaaaaaaaaaaaaaaaaaaa")).data.length →
        "aaaaaaaaaaaaaaaaaaaaaaaaaaaaaaaaaaaaaaaaaaaaaaaaaaaaaaaaaaaa…".data =
          (jsTrim (replaceFirst re
            " TODO: aaaaaaaaaaaaaaaaaaaaaaaaaaaaaaaaaaaaaaaaaaaaaaaaaaaaaaaaaaaaaaaaa")).data.take 60 ++
            ['…'] ∧
        ((jsTrim (replaceFirst re
          " TODO: aaaaaaaaaaaaaaaaaaaaaaaaaaaaaaaaaaaaaaaaaaaaaaaaaaaaaaaaaaaaaaaaa")).data.take 60).length = 60) ∧
      ((jsTrim (replaceFirst re
          " TODO: aaaaaaaaaaaaaaaaaaaaaaaaaaaaaaaaaaaaaaaaaaaaaaaaaaaaaaaaaaaaaaaaa")).data.length ≤ 60 →
        "aaaaaaaaaaaaaaaaaaaaaaaaaaaaaaaaaaaaaaaaaaaaaaaaaaaaaaaaaaaa…" =
          jsTrim (replaceFirst re
            " TODO: aaaaaaaaaaaaaaaaaaaaaaaaaaaaaaaaaaaaaaaaaaaaaaaaaaaaaaaaaaaaaaaaa"))) :=
  ⟨by decide, c3_message_truncation [convertToRegExp .start "todo"] none
    " TODO: aaaaaaaaaaaaaaaaaaaaaaaaaaaaaaaaaaaaaaaaaaaaaaaaaaaaaaaaaaaaaaaaa"
    "aaaaaaaaaaaaaaaaaaaaaaaaaaaaaaaaaaaaaaaaaaaaaaaaaaaaaaaaaaaa…" (by decide)⟩

/-- C4: with terms `["todo"]`, start mode and no tracker reference, the
comment text `" TODO: refactor this"` yields the diagnostic message
`Undocumented TODO: refactor this`: the optional trailing colon is consumed
as part of the matched span, so it does not appear in the remainder. -/
theorem c4_trailing_colon_consumed :
    checkComment (warningRegExps .start ["todo"]) none
      ⟨.line, " TODO: refactor this"⟩ = some "Undocumented TODO: refactor this" := by
  decide

/-- C5: the claim describes the intended discovery of the default tracker
reference (`bugs` as string, else `bugs.url`; otherwise `repository` as
string, else `repository.url`); the code instead guards the `repository`
object branch by reading `resolutions.url`, so on a manifest whose `bugs`
is absent, whose `repository` is an object with a `url`, and whose
`resolutions` is absent, `getRepoUrl` throws a TypeError instead of
returning the repository url. -/
theorem c5_resolutions_guard_throws :
    getRepoUrl (some (PackageJson.mk .absent (.obj (some "https://r"))
      .absent)) = .error () := rfl

/-- C6: the claim says a failed manifest lookup degrades silently to `no
exemption possible`; the code instead reads `.packageJson` off the lookup
result, so when no manifest is found (`readPkgUp.sync()` returns
`undefined`) `getRepoUrl` throws a TypeError rather than proceeding as if
the url were unset. -/
theorem c6_missing_manifest_throws : getRepoUrl none = .error () := rfl

/-- C7: the anywhere-mode pattern text is the alternation of the
boundary-aware branch (prefix rule, escaped term, suffix rule) with a
second whole-word branch over the raw unescaped term bounded by word
boundaries and without the optional-colon rule (visible concretely for the
term `c++`, which is escaped only in the first branch), and a comment
matches the compiled anywhere-mode regex exactly when either alternative
matches. -/
theorem c7_anywhere_alternation :
    (∀ term : String, convertToRegExpSrc .anywhere term =
        (anywherePreSrc term ++ escapeRegExp term ++ sufSrc term) ++
          ("|" ++ ("\\b" ++ term ++ "\\b"))) ∧
    convertToRegExpSrc .anywhere "c++" = "\\bc\\+\\+:?|\\bc++\\b" ∧
    (∀ term c : String,
        reTest (convertToRegExp .anywhere term) c =
          (reTest (reSeq (anywherePre term ++ [lits term.data, sufOf term])) c ||
            reTest (reSeq [.wb, lits term.data, .wb]) c)) := by
  refine ⟨?_, by decide, ?_⟩
  · intro term
    apply String.ext
    simp [convertToRegExpSrc, String.data_append, List.append_assoc]
  · intro term c
    exact reTest_alt _ _ c

/-- C8: for every term whose last character is not a word character the
suffix rule imposes no trailing word-boundary requirement (only the
optional colon), and with term `FIX!` in start mode the comment
`FIX! blah` matches. -/
theorem c8_no_trailing_boundary_for_punctuation :
    (∀ term : String, termEndsWord term = false →
        sufOf term = .opt (.lit ':')) ∧
    reTest (convertToRegExp .start "FIX!") "FIX! blah" = true := by
  constructor
  · intro term h
    rw [sufOf, if_neg (by simp [h])]
  · decide

theorem c8_witness :
    termEndsWord "FIX!" = false ∧ sufOf "FIX!" = .opt (.lit ':') :=
  ⟨by decide, c8_no_trailing_boundary_for_punctuation.1 "FIX!" (by decide)⟩

/-- C9: a single-line comment whose trimmed text begins with `eslint-` and
which matches the fixed `no-warning-comments` token regex never produces a
finding, regardless of the configured terms and tracker reference. -/
theorem c9_self_directive_exempt (rs : List RE) (url : Option String)
    (node : Comment) (hline : node.type = .line)
    (hlead : leadsWith "eslint-".data (jsTrim node.value).data = true)
    (hself : reTest selfConfigRegEx node.value = true) :
    checkComment rs url node = none := by
  have hdir : isDirectiveComment node = true := by
    simp [isDirectiveComment, hline, hlead]
  simp [checkComment, hdir, hself]

theorem c9_witness :
    (Comment.mk .line " eslint-disable-next-line no-warning-comments").type =
        .line ∧
    leadsWith "eslint-".data
      (jsTrim (Comment.mk .line
        " eslint-disable-next-line no-warning-comments").value).data = true ∧
    reTest selfConfigRegEx
      (Comment.mk .line " eslint-disable-next-line no-warning-comments").value =
        true ∧
    checkComment (warningRegExps .start defaultWarningTerms) none
      ⟨.line, " eslint-disable-next-line no-warning-comments"⟩ = none :=
  ⟨rfl, by decide, by decide,
    c9_self_directive_exempt (warningRegExps .start defaultWarningTerms) none
      ⟨.line, " eslint-disable-next-line no-warning-comments"⟩ rfl (by decide)
      (by decide)⟩

/-- C10: a comment whose remainder after deleting the matched span and
trimming is empty produces no diagnostic at all: the empty message is falsy
in the reporting guard, so it is treated the same as no match. -/
theorem c10_empty_message_suppressed (rs : List RE) (url : Option String)
    (node : Comment)
    (h : getUndocumentedTodoMessage rs url node.value = some "") :
    checkComment rs url node = none := by
  rw [checkComment]
  by_cases hd : (isDirectiveComment node && reTest selfConfigRegEx node.value) = true
  · rw [if_pos hd]
  · rw [if_neg hd, h]
    rfl

theorem c10_witness :
    getUndocumentedTodoMessage [convertToRegExp .start "todo"] none
        (Comment.mk .line " TODO:").value = some "" ∧
    checkComment [convertToRegExp .start "todo"] none ⟨.line, " TODO:"⟩ = none :=
  ⟨by decide, c10_empty_message_suppressed [convertToRegExp .start "todo"] none
    ⟨.line, " TODO:"⟩ (by decide)⟩
